import Mathlib

/-!
Verification of the `apz` terminal audio player core: the sample tap
(`src/tee_source.rs`), the spectrum analyzer (`src/spectrum.rs`) and the
command-line entry behaviour (`src/main.rs`), shallowly embedded in Lean.
Samples (Rust `f32`) are modelled as real numbers.
-/

namespace Apz

open Filter

/-! ## Shared sample buffer and `TeeSource` (src/tee_source.rs) -/

/-- Metadata and sample stream of a wrapped `rodio::Source<Item = f32>`.
The remaining samples are a list; `channels` (`u16`), `sample_rate` (`u32`)
are naturals, `total_duration` (`Option<Duration>`) and
`current_frame_len` (`Option<usize>`) are optional naturals. -/
structure RodioSource where
  samples : List ℝ
  channels : ℕ
  sample_rate : ℕ
  total_duration : Option ℕ
  current_frame_len : Option ℕ

/-- The `TeeSource<I>` struct: a wrapped input source, the shared sample
buffer (`Arc<Mutex<Vec<f32>>>`, modelled by its contents) and the
`buffer_size` field. -/
structure TeeSource where
  input : RodioSource
  sample_buffer : List ℝ
  buffer_size : ℕ

/-- The body of `TeeSource::new`: store the input and buffer handle and set
`buffer_size: 2048`. -/
def TeeSource.new (input : RodioSource) (sample_buffer : List ℝ) : TeeSource :=
  { input := input, sample_buffer := sample_buffer, buffer_size := 2048 }

/-- One buffer write of `TeeSource::next`: `buffer.push(sample)` followed by
`if len > buffer_size { buffer.drain(0..len - buffer_size) }`, where `len`
is the length after the push. -/
def pushSample (cap : ℕ) (buf : List ℝ) (s : ℝ) : List ℝ :=
  let b := buf ++ [s]
  if cap < b.length then b.drop (b.length - cap) else b

/-- The body of `TeeSource::next`: pull one sample from the wrapped input;
on `Some(sample)` push it into the shared buffer (with the overflow drain)
and return the sample unchanged; on `None` return `None` and touch nothing. -/
def TeeSource.next (t : TeeSource) : Option ℝ × TeeSource :=
  match t.input.samples with
  | s :: rest =>
      (some s,
        { t with
            input := { t.input with samples := rest }
            sample_buffer := pushSample t.buffer_size t.sample_buffer s })
  | [] => (none, t)

/-- The state change of one `TeeSource::next` call (the returned sample
dropped), used to iterate the tap. -/
def teeStep (t : TeeSource) : TeeSource := (t.next).2

/-- The `Source` impl for `TeeSource`: `channels` delegates to the input. -/
def TeeSource.channels (t : TeeSource) : ℕ := t.input.channels

/-- The `Source` impl for `TeeSource`: `sample_rate` delegates to the input. -/
def TeeSource.sample_rate (t : TeeSource) : ℕ := t.input.sample_rate

/-- The `Source` impl for `TeeSource`: `total_duration` delegates to the input. -/
def TeeSource.total_duration (t : TeeSource) : Option ℕ := t.input.total_duration

/-- The `Source` impl for `TeeSource`: `current_frame_len` delegates to the input. -/
def TeeSource.current_frame_len (t : TeeSource) : Option ℕ := t.input.current_frame_len

/-! ### Buffer lemmas -/

/-- A push keeps exactly the last `cap` elements: with truncated (natural)
subtraction the drain is the identity when the pushed buffer still fits. -/
lemma pushSample_eq_drop (cap : ℕ) (buf : List ℝ) (s : ℝ) :
    pushSample cap buf s = (buf ++ [s]).drop (buf.length + 1 - cap) := by
  unfold pushSample
  simp only [List.length_append, List.length_cons, List.length_nil]
  split
  · rfl
  · have h : buf.length + 1 - cap = 0 := by omega
    simp [h]

lemma length_pushSample (cap : ℕ) (buf : List ℝ) (s : ℝ) :
    (pushSample cap buf s).length = min (buf.length + 1) cap := by
  rw [pushSample_eq_drop]
  simp only [List.length_drop, List.length_append, List.length_cons, List.length_nil]
  omega

/-- Folding pushes over a list keeps the last `cap` elements of the
initial buffer followed by the pushed samples, provided the initial buffer
already fits. -/
lemma foldl_pushSample (cap : ℕ) (xs : List ℝ) :
    ∀ buf : List ℝ, buf.length ≤ cap →
      List.foldl (pushSample cap) buf xs
        = (buf ++ xs).drop (buf.length + xs.length - cap) := by
  induction xs with
  | nil =>
      intro buf hbuf
      simp only [List.foldl_nil, List.append_nil, List.length_nil, Nat.add_zero]
      rw [Nat.sub_eq_zero_of_le hbuf, List.drop_zero]
  | cons x xs ih =>
      intro buf hbuf
      rw [List.foldl_cons, pushSample_eq_drop]
      have hlen : ((buf ++ [x]).drop (buf.length + 1 - cap)).length ≤ cap := by
        simp only [List.length_drop, List.length_append, List.length_cons,
          List.length_nil]
        omega
      rw [ih _ hlen]
      have hle : buf.length + 1 - cap ≤ (buf ++ [x]).length := by
        simp only [List.length_append, List.length_cons, List.length_nil]
        omega
      rw [← List.drop_append_of_le_length hle, List.drop_drop]
      have harr : (buf ++ [x]) ++ xs = buf ++ x :: xs := by simp
      rw [harr]
      congr 1
      simp only [List.length_drop, List.length_append, List.length_cons,
        List.length_nil]
      omega

/-- Iterating `teeStep` from a tap consumes a prefix of the input and folds
its samples into the buffer. -/
lemma teeStep_iterate (n : ℕ) :
    ∀ t : TeeSource,
      (teeStep^[n] t).sample_buffer
          = List.foldl (pushSample t.buffer_size) t.sample_buffer
              (t.input.samples.take n) ∧
        (teeStep^[n] t).input.samples = t.input.samples.drop n ∧
        (teeStep^[n] t).buffer_size = t.buffer_size := by
  induction n with
  | zero => intro t; simp
  | succ n ih =>
      intro t
      rw [Function.iterate_succ_apply]
      rcases h : t.input.samples with _ | ⟨s, rest⟩
      · have hstep : teeStep t = t := by
          simp [teeStep, TeeSource.next, h]
        rw [hstep]
        rcases ih t with ⟨h1, h2, h3⟩
        refine ⟨?_, ?_, h3⟩
        · rw [h1, h]; simp
        · rw [h2, h]; simp
      · have hstep : teeStep t =
            { t with
                input := { t.input with samples := rest }
                sample_buffer := pushSample t.buffer_size t.sample_buffer s } := by
          simp [teeStep, TeeSource.next, h]
        rw [hstep]
        rcases ih { t with
            input := { t.input with samples := rest }
            sample_buffer := pushSample t.buffer_size t.sample_buffer s } with
          ⟨h1, h2, h3⟩
        refine ⟨?_, ?_, h3⟩
        · rw [h1]; simp [List.take_succ_cons]
        · rw [h2]; simp

/-- C1: every push sequence fed through `TeeSource::next` (iterated from a
fresh tap over an empty shared buffer) keeps the buffer length at most the
capacity 2048, and leaves the buffer holding exactly the 2048
most-recently-pushed samples in push order (all of them when fewer than
2048 samples have been pushed). -/
theorem tee_buffer_bounded_window (src : RodioSource) (n : ℕ) :
    (teeStep^[n] (TeeSource.new src [])).sample_buffer.length ≤ 2048 ∧
      (teeStep^[n] (TeeSource.new src [])).sample_buffer
        = (src.samples.take n).drop ((src.samples.take n).length - 2048) := by
  rcases teeStep_iterate n (TeeSource.new src []) with ⟨h1, _, _⟩
  have hsrc : (TeeSource.new src []).input.samples = src.samples := rfl
  have hbufsz : (TeeSource.new src []).buffer_size = 2048 := rfl
  have hbuf0 : (TeeSource.new src []).sample_buffer = [] := rfl
  rw [hsrc, hbufsz, hbuf0] at h1
  have hw := foldl_pushSample 2048 (src.samples.take n) [] (by simp)
  simp only [List.nil_append, List.length_nil, Nat.zero_add] at hw
  rw [h1, hw]
  constructor
  · simp only [List.length_drop]
    omega
  · rfl

/-- C2: one call of `TeeSource::next` returns exactly the wrapped source's
next sample unchanged (`None` when the source is exhausted), and writes the
buffer only when a sample was produced: on exhaustion the shared buffer is
left unmodified. -/
theorem tee_next_passthrough (t : TeeSource) :
    (t.next).1 = t.input.samples.head? ∧
      (t.next).2.sample_buffer
        = (match t.input.samples.head? with
            | some s => pushSample t.buffer_size t.sample_buffer s
            | none => t.sample_buffer) := by
  rcases h : t.input.samples with _ | ⟨s, rest⟩
  · constructor
    · simp [TeeSource.next, h]
    · simp [TeeSource.next, h]
  · constructor
    · simp [TeeSource.next, h]
    · simp [TeeSource.next, h]

/-! ## Spectrum analyzer (src/spectrum.rs) -/

/-- The constant `SAMPLE_SIZE: usize = 2048`. -/
def SAMPLE_SIZE : ℕ := 2048

/-- The constant `NUM_BARS: usize = 50`. -/
def NUM_BARS : ℕ := 50

/-- The `SpectrumAnalyzer` struct: the contents of the shared
`Arc<Mutex<Vec<f32>>>` sample buffer, the bar values, and the smoothing
factor. -/
structure SpectrumAnalyzer where
  samples : List ℝ
  bars : List ℝ
  smoothing : ℝ

/-- The body of `SpectrumAnalyzer::new`: empty sample buffer,
`vec![0.0; NUM_BARS]` bars, smoothing `0.7`. -/
def SpectrumAnalyzer.new : SpectrumAnalyzer :=
  { samples := [], bars := List.replicate NUM_BARS 0, smoothing := 0.7 }

/-- Bin `k` of the forward DFT of the first `SAMPLE_SIZE` samples. Models
the external `rustfft` forward FFT (`plan_fft_forward` / `process`) applied
to `samples[..SAMPLE_SIZE]` with zero imaginary parts, idealized over the
reals: `X_k = Σ_j x_j · e^(-2πi·k·j/N)`. -/
noncomputable def dftAt (samples : List ℝ) (k : ℕ) : ℂ :=
  ∑ j : Fin SAMPLE_SIZE,
    ((samples.getD (j : ℕ) 0 : ℝ) : ℂ)
      * Complex.exp (-(2 * (Real.pi : ℂ) * Complex.I * (k : ℂ) * ((j : ℕ) : ℂ))
          / (SAMPLE_SIZE : ℂ))

/-- The magnitude `(c.re * c.re + c.im * c.im).sqrt()` of one bin. -/
noncomputable def magnitude (c : ℂ) : ℝ :=
  Real.sqrt (c.re * c.re + c.im * c.im)

/-- The `spectrum` vector of `update`: magnitudes of the first
`SAMPLE_SIZE / 2` DFT bins. -/
noncomputable def spectrumList (samples : List ℝ) : List ℝ :=
  (List.range (SAMPLE_SIZE / 2)).map (fun k => magnitude (dftAt samples k))

/-- The `freq_index` computation of `update`:
`((i / NUM_BARS)^1.3 * (spectrum.len() - 1)) as usize` (the float-to-usize
cast truncates, i.e. takes the natural floor) followed by
`.min(spectrum.len() - 1)`, where `spectrum.len() = SAMPLE_SIZE / 2`. -/
noncomputable def freqIndex (i : ℕ) : ℕ :=
  min ⌊((i : ℝ) / (NUM_BARS : ℝ)) ^ ((1.3 : ℝ)) * ((SAMPLE_SIZE / 2 - 1 : ℕ) : ℝ)⌋₊
    (SAMPLE_SIZE / 2 - 1)

/-- The `bass_boost` factor `1.5 * (1.0 - i / NUM_BARS)`. -/
noncomputable def bassBoost (i : ℕ) : ℝ := 1.5 * (1 - (i : ℝ) / (NUM_BARS : ℝ))

/-- The `amplitude` of bar `i`: `spectrum[freq_index] * (1.0 + bass_boost)`. -/
noncomputable def amplitudeAt (samples : List ℝ) (i : ℕ) : ℝ :=
  (spectrumList samples).getD (freqIndex i) 0 * (1 + bassBoost i)

/-- The `for (i, bar) in self.bars.iter_mut().enumerate()` loop: replace
each element by a function of its index and old value. -/
def enumMap (f : ℕ → ℝ → ℝ) : ℕ → List ℝ → List ℝ
  | _, [] => []
  | i, b :: bs => f i b :: enumMap f (i + 1) bs

/-- The body of `SpectrumAnalyzer::update`: if fewer than `SAMPLE_SIZE`
samples are buffered, return unchanged; otherwise recompute every bar as
`bar * smoothing + amplitude * (1 - smoothing)`. -/
noncomputable def SpectrumAnalyzer.update (a : SpectrumAnalyzer) : SpectrumAnalyzer :=
  if a.samples.length < SAMPLE_SIZE then a
  else
    { a with
        bars := enumMap
          (fun i b => b * a.smoothing + amplitudeAt a.samples i * (1 - a.smoothing))
          0 a.bars }

/-- One UI frame against a given buffer snapshot: the writer may have
replaced the shared buffer contents since the last frame, then `update`
runs. -/
noncomputable def stepWith (a : SpectrumAnalyzer) (buf : List ℝ) : SpectrumAnalyzer :=
  SpectrumAnalyzer.update { a with samples := buf }

/-! ### Spectrum helper lemmas -/

lemma enumMap_length (f : ℕ → ℝ → ℝ) : ∀ (n : ℕ) (l : List ℝ),
    (enumMap f n l).length = l.length
  | _, [] => rfl
  | n, _ :: bs => by simp [enumMap, enumMap_length f (n + 1) bs]

lemma enumMap_getD (f : ℕ → ℝ → ℝ) :
    ∀ (l : List ℝ) (n i : ℕ), i < l.length →
      (enumMap f n l).getD i 0 = f (n + i) (l.getD i 0) := by
  intro l
  induction l with
  | nil => intro n i hi; simp at hi
  | cons b bs ih =>
      intro n i hi
      cases i with
      | zero => simp [enumMap]
      | succ i =>
          simp only [enumMap, List.getD_cons_succ]
          rw [ih (n + 1) i (by simpa using hi)]
          ring_nf

lemma spectrumList_length (samples : List ℝ) :
    (spectrumList samples).length = SAMPLE_SIZE / 2 := by
  simp [spectrumList]

lemma spectrumList_getD (samples : List ℝ) (k : ℕ) (hk : k < SAMPLE_SIZE / 2) :
    (spectrumList samples).getD k 0 = magnitude (dftAt samples k) := by
  rw [spectrumList, List.getD_eq_getElem _ _ (by simpa using hk)]
  simp

lemma freqIndex_lt_bins (i : ℕ) : freqIndex i < SAMPLE_SIZE / 2 := by
  have h1 : freqIndex i ≤ SAMPLE_SIZE / 2 - 1 := Nat.min_le_right _ _
  have h2 : SAMPLE_SIZE / 2 - 1 < SAMPLE_SIZE / 2 := by norm_num [SAMPLE_SIZE]
  omega

lemma getD_of_all_zero : ∀ (l : List ℝ), (∀ x ∈ l, x = 0) → ∀ j : ℕ, l.getD j 0 = 0 := by
  intro l
  induction l with
  | nil => intro _ j; simp
  | cons a l ih =>
      intro h j
      cases j with
      | zero => simpa using h a (by simp)
      | succ j =>
          simp only [List.getD_cons_succ]
          exact ih (fun x hx => h x (by simp [hx])) j

lemma getD_nonneg_of_all_nonneg : ∀ (l : List ℝ), (∀ x ∈ l, 0 ≤ x) → ∀ j : ℕ, 0 ≤ l.getD j 0 := by
  intro l
  induction l with
  | nil => intro _ j; simp
  | cons a l ih =>
      intro h j
      cases j with
      | zero => simpa using h a (by simp)
      | succ j =>
          simp only [List.getD_cons_succ]
          exact ih (fun x hx => h x (by simp [hx])) j

lemma spectrumList_nonneg (samples : List ℝ) : ∀ x ∈ spectrumList samples, 0 ≤ x := by
  intro x hx
  rw [spectrumList, List.mem_map] at hx
  rcases hx with ⟨k, _, rfl⟩
  exact Real.sqrt_nonneg _

lemma update_samples (a : SpectrumAnalyzer) : a.update.samples = a.samples := by
  unfold SpectrumAnalyzer.update
  split <;> rfl

lemma update_smoothing (a : SpectrumAnalyzer) : a.update.smoothing = a.smoothing := by
  unfold SpectrumAnalyzer.update
  split <;> rfl

lemma update_of_full (a : SpectrumAnalyzer) (h : SAMPLE_SIZE ≤ a.samples.length) :
    a.update
      = { a with
            bars := enumMap
              (fun i b => b * a.smoothing + amplitudeAt a.samples i * (1 - a.smoothing))
              0 a.bars } := by
  unfold SpectrumAnalyzer.update
  rw [if_neg (by omega)]

/-- C3: when the shared buffer holds fewer than `SAMPLE_SIZE = 2048`
samples, `SpectrumAnalyzer::update` is a no-op: the whole analyzer state,
bars included, is unchanged. -/
theorem spectrum_update_underrun (a : SpectrumAnalyzer)
    (h : a.samples.length < SAMPLE_SIZE) : a.update = a := by
  unfold SpectrumAnalyzer.update
  rw [if_pos h]

/-- Witness for C3 at the freshly constructed analyzer (empty buffer). -/
theorem spectrum_update_underrun_witness :
    SpectrumAnalyzer.new.samples.length < SAMPLE_SIZE ∧
      SpectrumAnalyzer.new.update = SpectrumAnalyzer.new :=
  ⟨by norm_num [SpectrumAnalyzer.new, SAMPLE_SIZE],
    spectrum_update_underrun SpectrumAnalyzer.new
      (by norm_num [SpectrumAnalyzer.new, SAMPLE_SIZE])⟩

/-- C4: with at least `SAMPLE_SIZE = 2048` buffered samples, `update` sets
bar `i` to `bar * 0.7 + amplitude * 0.3`, where the amplitude is the
magnitude `sqrt(re² + im²)` of the selected forward-DFT bin of the first
`SAMPLE_SIZE` samples multiplied by the bass-boost factor
`1 + 1.5 * (1 - i / NUM_BARS)`. -/
theorem spectrum_update_formula (a : SpectrumAnalyzer) (i : ℕ)
    (h : SAMPLE_SIZE ≤ a.samples.length) (hs : a.smoothing = 0.7)
    (hi : i < a.bars.length) :
    a.update.bars.getD i 0
      = a.bars.getD i 0 * 0.7
        + magnitude (dftAt a.samples (freqIndex i))
            * (1 + 1.5 * (1 - (i : ℝ) / (NUM_BARS : ℝ))) * 0.3 := by
  rw [update_of_full a h]
  show (enumMap
      (fun i b => b * a.smoothing + amplitudeAt a.samples i * (1 - a.smoothing))
      0 a.bars).getD i 0 = _
  rw [enumMap_getD _ a.bars 0 i hi]
  simp only [Nat.zero_add]
  rw [amplitudeAt, spectrumList_getD a.samples (freqIndex i) (freqIndex_lt_bins i),
    bassBoost, hs]
  norm_num

/-- Witness for C4 at an all-zero 2048-sample buffer and bar 0. -/
theorem spectrum_update_formula_witness :
    SAMPLE_SIZE
        ≤ ({ samples := List.replicate SAMPLE_SIZE 0, bars := List.replicate NUM_BARS 0,
              smoothing := 0.7 } : SpectrumAnalyzer).samples.length ∧
      ({ samples := List.replicate SAMPLE_SIZE 0, bars := List.replicate NUM_BARS 0,
            smoothing := 0.7 } : SpectrumAnalyzer).update.bars.getD 0 0
        = ({ samples := List.replicate SAMPLE_SIZE 0, bars := List.replicate NUM_BARS 0,
              smoothing := 0.7 } : SpectrumAnalyzer).bars.getD 0 0 * 0.7
          + magnitude (dftAt (List.replicate SAMPLE_SIZE 0) (freqIndex 0))
              * (1 + 1.5 * (1 - (0 : ℝ) / (NUM_BARS : ℝ))) * 0.3 :=
  ⟨by simp, by
    have h := spectrum_update_formula
      { samples := List.replicate SAMPLE_SIZE 0, bars := List.replicate NUM_BARS 0,
        smoothing := 0.7 } 0 (by simp) rfl (by norm_num [NUM_BARS])
    simpa using h⟩

/-- C5: for every bar index `i < NUM_BARS`, the frequency-bin index used by
`update` equals `floor((i / NUM_BARS)^1.3 * (bins - 1))` (the clamp is
inert there) and lies within `[0, bins - 1]`, where `bins = SAMPLE_SIZE / 2`. -/
theorem freq_index_floor_clamped (i : ℕ) (hi : i < NUM_BARS) :
    freqIndex i
        = ⌊((i : ℝ) / (NUM_BARS : ℝ)) ^ ((1.3 : ℝ))
            * ((SAMPLE_SIZE / 2 - 1 : ℕ) : ℝ)⌋₊ ∧
      freqIndex i < SAMPLE_SIZE / 2 := by
  refine ⟨?_, freqIndex_lt_bins i⟩
  have hx0 : (0 : ℝ) ≤ (i : ℝ) / (NUM_BARS : ℝ) := by positivity
  have hx1 : (i : ℝ) / (NUM_BARS : ℝ) < 1 := by
    rw [div_lt_one (by norm_num [NUM_BARS])]
    exact_mod_cast hi
  have hr1 : ((i : ℝ) / (NUM_BARS : ℝ)) ^ ((1.3 : ℝ)) < 1 :=
    Real.rpow_lt_one hx0 hx1 (by norm_num)
  have hr0 : 0 ≤ ((i : ℝ) / (NUM_BARS : ℝ)) ^ ((1.3 : ℝ)) :=
    Real.rpow_nonneg hx0 _
  have hp : ((i : ℝ) / (NUM_BARS : ℝ)) ^ ((1.3 : ℝ)) * ((SAMPLE_SIZE / 2 - 1 : ℕ) : ℝ)
      < ((SAMPLE_SIZE / 2 - 1 : ℕ) : ℝ) := by
    have hpos : (0 : ℝ) < ((SAMPLE_SIZE / 2 - 1 : ℕ) : ℝ) := by
      norm_num [SAMPLE_SIZE]
    calc ((i : ℝ) / (NUM_BARS : ℝ)) ^ ((1.3 : ℝ)) * ((SAMPLE_SIZE / 2 - 1 : ℕ) : ℝ)
        < 1 * ((SAMPLE_SIZE / 2 - 1 : ℕ) : ℝ) := by
          exact mul_lt_mul_of_pos_right hr1 hpos
      _ = ((SAMPLE_SIZE / 2 - 1 : ℕ) : ℝ) := one_mul _
  have hfl : ⌊((i : ℝ) / (NUM_BARS : ℝ)) ^ ((1.3 : ℝ))
      * ((SAMPLE_SIZE / 2 - 1 : ℕ) : ℝ)⌋₊ < SAMPLE_SIZE / 2 - 1 := by
    rw [Nat.floor_lt (by positivity)]
    exact hp
  unfold freqIndex
  exact Nat.min_eq_left (le_of_lt hfl)

/-- Witness for C5 at bar index 0. -/
theorem freq_index_floor_clamped_witness :
    0 < NUM_BARS ∧
      (freqIndex 0
          = ⌊((0 : ℝ) / (NUM_BARS : ℝ)) ^ ((1.3 : ℝ))
              * ((SAMPLE_SIZE / 2 - 1 : ℕ) : ℝ)⌋₊ ∧
        freqIndex 0 < SAMPLE_SIZE / 2) :=
  ⟨by norm_num [NUM_BARS], by
    simpa using freq_index_floor_clamped 0 (by norm_num [NUM_BARS])⟩

lemma dftAt_of_all_zero (samples : List ℝ) (hzero : ∀ x ∈ samples, x = 0) (k : ℕ) :
    dftAt samples k = 0 := by
  unfold dftAt
  apply Finset.sum_eq_zero
  intro j _
  rw [getD_of_all_zero samples hzero (j : ℕ)]
  simp

lemma magnitude_zero : magnitude 0 = 0 := by
  simp [magnitude]

lemma amplitudeAt_of_all_zero (samples : List ℝ) (hzero : ∀ x ∈ samples, x = 0)
    (i : ℕ) : amplitudeAt samples i = 0 := by
  unfold amplitudeAt
  rw [spectrumList_getD samples (freqIndex i) (freqIndex_lt_bins i),
    dftAt_of_all_zero samples hzero, magnitude_zero, zero_mul]

lemma enumMap_eq_map (f : ℕ → ℝ → ℝ) (g : ℝ → ℝ) (hf : ∀ i b, f i b = g b) :
    ∀ (n : ℕ) (l : List ℝ), enumMap f n l = l.map g := by
  intro n l
  induction l generalizing n with
  | nil => rfl
  | cons b bs ih => simp [enumMap, hf, ih]

lemma getD_map_mul (l : List ℝ) (c : ℝ) : ∀ i : ℕ,
    (l.map (fun b => b * c)).getD i 0 = l.getD i 0 * c := by
  induction l with
  | nil => intro i; simp
  | cons b bs ih =>
      intro i
      cases i with
      | zero => simp
      | succ i => simpa using ih i

lemma update_of_all_zero (a : SpectrumAnalyzer)
    (hlen : SAMPLE_SIZE ≤ a.samples.length) (hzero : ∀ x ∈ a.samples, x = 0) :
    a.update = { a with bars := a.bars.map (fun b => b * a.smoothing) } := by
  rw [update_of_full a hlen]
  congr 1
  apply enumMap_eq_map
  intro i b
  rw [amplitudeAt_of_all_zero a.samples hzero i, zero_mul, add_zero]

lemma update_iter_all_zero (a : SpectrumAnalyzer)
    (hlen : SAMPLE_SIZE ≤ a.samples.length) (hzero : ∀ x ∈ a.samples, x = 0)
    (hs : a.smoothing = 0.7) :
    ∀ n : ℕ,
      ((SpectrumAnalyzer.update)^[n] a).samples = a.samples ∧
        ((SpectrumAnalyzer.update)^[n] a).smoothing = a.smoothing ∧
        ∀ i : ℕ,
          ((SpectrumAnalyzer.update)^[n] a).bars.getD i 0
            = 0.7 ^ n * a.bars.getD i 0 := by
  intro n
  induction n with
  | zero => exact ⟨rfl, rfl, by intro i; simp⟩
  | succ n ih =>
      rcases ih with ⟨hsamp, hsm, hbars⟩
      rw [Function.iterate_succ_apply']
      have hlen' : SAMPLE_SIZE ≤ ((SpectrumAnalyzer.update)^[n] a).samples.length := by
        rw [hsamp]; exact hlen
      have hzero' : ∀ x ∈ ((SpectrumAnalyzer.update)^[n] a).samples, x = 0 := by
        rw [hsamp]; exact hzero
      refine ⟨?_, ?_, ?_⟩
      · rw [update_samples, hsamp]
      · rw [update_smoothing, hsm]
      · intro i
        rw [update_of_all_zero _ hlen' hzero']
        show ((((SpectrumAnalyzer.update)^[n] a).bars.map
            (fun b => b * ((SpectrumAnalyzer.update)^[n] a).smoothing)).getD i 0) = _
        rw [getD_map_mul, hbars i, hsm, hs]
        ring

/-- C7: with at least `SAMPLE_SIZE` all-zero buffered samples, every
`update` call multiplies each bar by the smoothing factor `0.7`; hence
under repeated updates bar `i` equals `0.7^n` times its initial value,
decreases monotonically (bars being non-negative) and converges to zero. -/
theorem spectrum_zero_decay (a : SpectrumAnalyzer) (i : ℕ)
    (hlen : SAMPLE_SIZE ≤ a.samples.length) (hzero : ∀ x ∈ a.samples, x = 0)
    (hs : a.smoothing = 0.7) (hi : i < a.bars.length)
    (hb : ∀ b ∈ a.bars, 0 ≤ b) :
    a.update.bars = a.bars.map (fun b => b * 0.7) ∧
      (∀ n : ℕ,
        ((SpectrumAnalyzer.update)^[n] a).bars.getD i 0
          = 0.7 ^ n * a.bars.getD i 0) ∧
      Antitone (fun n : ℕ => ((SpectrumAnalyzer.update)^[n] a).bars.getD i 0) ∧
      Tendsto (fun n : ℕ => ((SpectrumAnalyzer.update)^[n] a).bars.getD i 0)
        atTop (nhds 0) := by
  have hfor : ∀ n : ℕ,
      ((SpectrumAnalyzer.update)^[n] a).bars.getD i 0
        = 0.7 ^ n * a.bars.getD i 0 :=
    fun n => (update_iter_all_zero a hlen hzero hs n).2.2 i
  have hc : 0 ≤ a.bars.getD i 0 := by
    rw [List.getD_eq_getElem a.bars 0 hi]
    exact hb _ (a.bars.getElem_mem hi)
  refine ⟨?_, hfor, ?_, ?_⟩
  · rw [update_of_all_zero a hlen hzero, hs]
  · intro m n hmn
    simp only
    rw [hfor m, hfor n]
    exact mul_le_mul_of_nonneg_right
      (pow_le_pow_of_le_one (by norm_num) (by norm_num) hmn) hc
  · have hlim : Tendsto (fun n : ℕ => (0.7 : ℝ) ^ n * a.bars.getD i 0)
        atTop (nhds (0 * a.bars.getD i 0)) :=
      (tendsto_pow_atTop_nhds_zero_of_lt_one (by norm_num) (by norm_num)).mul_const _
    rw [zero_mul] at hlim
    exact hlim.congr (fun n => (hfor n).symm)

/-- Witness for C7: the fresh analyzer with a 2048-sample all-zero buffer. -/
theorem spectrum_zero_decay_witness :
    (∀ x ∈ List.replicate SAMPLE_SIZE (0 : ℝ), x = 0) ∧
      Tendsto
        (fun n : ℕ =>
          ((SpectrumAnalyzer.update)^[n]
              { samples := List.replicate SAMPLE_SIZE 0,
                bars := List.replicate NUM_BARS 0,
                smoothing := 0.7 }).bars.getD 0 0)
        atTop (nhds 0) :=
  ⟨by simp, (spectrum_zero_decay
      { samples := List.replicate SAMPLE_SIZE 0, bars := List.replicate NUM_BARS 0,
        smoothing := 0.7 } 0 (by simp) (by simp) rfl (by norm_num [NUM_BARS])
      (by intro b hb; rw [List.eq_of_mem_replicate hb])).2.2.2⟩

lemma one_add_bassBoost_nonneg (i : ℕ) (hi : i < NUM_BARS) :
    0 ≤ 1 + bassBoost i := by
  unfold bassBoost
  have hx : (i : ℝ) / (NUM_BARS : ℝ) ≤ 1 := by
    rw [div_le_one (by norm_num [NUM_BARS])]
    have : (i : ℝ) ≤ (NUM_BARS : ℝ) := by exact_mod_cast le_of_lt hi
    exact this
  nlinarith

lemma amplitudeAt_nonneg (samples : List ℝ) (i : ℕ) (hi : i < NUM_BARS) :
    0 ≤ amplitudeAt samples i := by
  unfold amplitudeAt
  exact mul_nonneg
    (getD_nonneg_of_all_nonneg _ (spectrumList_nonneg samples) _)
    (one_add_bassBoost_nonneg i hi)

lemma enumMap_nonneg (f : ℕ → ℝ → ℝ) :
    ∀ (l : List ℝ) (n : ℕ),
      (∀ i b, i < n + l.length → 0 ≤ b → 0 ≤ f i b) →
      (∀ b ∈ l, 0 ≤ b) →
      ∀ b ∈ enumMap f n l, 0 ≤ b := by
  intro l
  induction l with
  | nil => intro n _ _ b hb; simp [enumMap] at hb
  | cons x xs ih =>
      intro n hf hl b hb
      rcases List.mem_cons.mp hb with hb | hb
      · rw [hb]
        exact hf n x (by simp only [List.length_cons]; omega) (hl x (by simp))
      · exact ih (n + 1)
          (fun i c hic hc => hf i c (by simp only [List.length_cons]; omega) hc)
          (fun c hc => hl c (by simp [hc])) b hb

lemma update_preserves_inv (a : SpectrumAnalyzer)
    (hlen : a.bars.length = NUM_BARS) (hpos : ∀ b ∈ a.bars, 0 ≤ b)
    (hs : a.smoothing = 0.7) :
    a.update.bars.length = NUM_BARS ∧ (∀ b ∈ a.update.bars, 0 ≤ b) ∧
      a.update.smoothing = 0.7 := by
  by_cases h : a.samples.length < SAMPLE_SIZE
  · have hu : a.update = a := by
      unfold SpectrumAnalyzer.update
      rw [if_pos h]
    rw [hu]
    exact ⟨hlen, hpos, hs⟩
  · rw [update_of_full a (by omega)]
    refine ⟨?_, ?_, hs⟩
    · show (enumMap _ 0 a.bars).length = NUM_BARS
      rw [enumMap_length]
      exact hlen
    · show ∀ b ∈ enumMap _ 0 a.bars, 0 ≤ b
      apply enumMap_nonneg _ a.bars 0 _ hpos
      intro i b hib hb
      have hiN : i < NUM_BARS := by omega
      rw [hs]
      have h1 : (0 : ℝ) ≤ b * 0.7 := by nlinarith
      have h2 : (0 : ℝ) ≤ amplitudeAt a.samples i * (1 - 0.7) := by
        have := amplitudeAt_nonneg a.samples i hiN
        nlinarith
      linarith

lemma foldl_stepWith_inv :
    ∀ (bufs : List (List ℝ)) (a : SpectrumAnalyzer),
      a.bars.length = NUM_BARS → (∀ b ∈ a.bars, 0 ≤ b) → a.smoothing = 0.7 →
      (List.foldl stepWith a bufs).bars.length = NUM_BARS ∧
        (∀ b ∈ (List.foldl stepWith a bufs).bars, 0 ≤ b) ∧
        (List.foldl stepWith a bufs).smoothing = 0.7 := by
  intro bufs
  induction bufs with
  | nil => intro a h1 h2 h3; exact ⟨h1, h2, h3⟩
  | cons buf bufs ih =>
      intro a h1 h2 h3
      rw [List.foldl_cons]
      have hstep := update_preserves_inv { a with samples := buf } h1 h2 h3
      exact ih (stepWith a buf) hstep.1 hstep.2.1 hstep.2.2

/-- C8: after `SpectrumAnalyzer::new` and any sequence of `update` calls
against arbitrary buffer snapshots, the bars list has length exactly
`NUM_BARS = 50` and every bar value is non-negative (DFT magnitudes being
square roots, hence non-negative). -/
theorem spectrum_bars_length_nonneg (bufs : List (List ℝ)) :
    (List.foldl stepWith SpectrumAnalyzer.new bufs).bars.length = NUM_BARS ∧
      ∀ b ∈ (List.foldl stepWith SpectrumAnalyzer.new bufs).bars, 0 ≤ b := by
  have h := foldl_stepWith_inv bufs SpectrumAnalyzer.new
    (by simp [SpectrumAnalyzer.new])
    (by
      intro b hb
      rw [List.eq_of_mem_replicate hb])
    rfl
  exact ⟨h.1, h.2.1⟩

/-! ## Mutex discipline (src/tee_source.rs, src/spectrum.rs)

The lock/compute interleaving of the two critical sections, modelled as
straight-line event traces following the Rust control flow. A `MutexGuard`
is dropped — releasing the lock — at the end of its enclosing scope. -/

/-- Events of the two critical sections around the shared sample buffer. -/
inductive LockEvent where
  | lockAcquire
  | bufferPush
  | snapshotCopy
  | fftCompute
  | smoothBars
  | lockRelease
deriving DecidableEq

/-- Event trace of the `Some(sample)` branch of `TeeSource::next`: the
guard from `self.sample_buffer.lock()` is taken at the top of the branch,
the push (with its overflow drain) happens, and the guard is dropped at the
end of the branch, right after the push. -/
def teeNextTrace : List LockEvent :=
  [LockEvent.lockAcquire, LockEvent.bufferPush, LockEvent.lockRelease]

/-- Event trace of `SpectrumAnalyzer::update` when at least `SAMPLE_SIZE`
samples are buffered: the guard bound to `samples` is taken first; the
snapshot copy into the private `Complex` buffer, `fft.process`, and the
bar-smoothing loop all run next; the guard is dropped only at the end of
the function body, so `lockRelease` is the final event. -/
def updateTrace : List LockEvent :=
  [LockEvent.lockAcquire, LockEvent.snapshotCopy, LockEvent.fftCompute,
    LockEvent.smoothBars, LockEvent.lockRelease]

/-- Whether some occurrence of event `e` in the trace happens while the
mutex is held (scanning left to right with the given initial held state). -/
def occursWhileLocked (e : LockEvent) : List LockEvent → Bool → Bool
  | [], _ => false
  | x :: xs, held =>
    if held ∧ x = e then true
    else
      occursWhileLocked e xs
        (if x = LockEvent.lockAcquire then true
         else if x = LockEvent.lockRelease then false
         else held)

/-- C6 (refuted by the code): in `SpectrumAnalyzer::update` the FFT runs
while the mutex is still held — the guard `samples` is only dropped at the
end of the function — contradicting the claim that the lock is never held
across the FFT computation. The tap side does satisfy the claim: in
`TeeSource::next` only the single push happens under the lock. -/
theorem update_lock_held_across_fft :
    occursWhileLocked LockEvent.fftCompute updateTrace false = true ∧
      occursWhileLocked LockEvent.bufferPush teeNextTrace false = true ∧
      occursWhileLocked LockEvent.fftCompute teeNextTrace false = false := by
  decide

/-! ## Command-line entry (src/main.rs) -/

/-- Whether a command-line argument starts with `'-'`
(Rust `arg.starts_with('-')`). -/
def startsWithDash (a : String) : Bool := a.data.head? = some '-'

/-- The argument scan of `main`: over `args.iter().skip(1)`,
`--visualizer`/`-v` sets the flag, any other argument not starting with
`'-'` becomes the audio path (later ones overwrite earlier ones). -/
def scanArgs : List String → Bool × Option String → Bool × Option String
  | [], acc => acc
  | a :: rest, (viz, path) =>
    if a = "--visualizer" ∨ a = "-v" then scanArgs rest (true, path)
    else if startsWithDash a then scanArgs rest (viz, path)
    else scanArgs rest (viz, some a)

/-- Observable outcome of `main`: `usageExit` models printing the
supported-format usage to stderr followed by `process::exit(code)`;
`loadErrorExit` models printing the load-failure reason followed by
`process::exit(code)`; `run` models proceeding into playback. -/
inductive MainOutcome where
  | usageExit (code : ℕ)
  | loadErrorExit (code : ℕ)
  | run (path : String) (visualizer : Bool)
deriving DecidableEq

/-- The decision structure of `main`: scan the arguments after `argv[0]`;
with no audio path, print usage and `process::exit(1)`; if `Player::new`
fails, print the reason and `process::exit(1)`; otherwise run. -/
def mainRun (argv : List String) (loadPlayer : String → Except String Unit) :
    MainOutcome :=
  match (scanArgs argv.tail (false, none)).2 with
  | none => MainOutcome.usageExit 1
  | some p =>
      match loadPlayer p with
      | Except.error _ => MainOutcome.loadErrorExit 1
      | Except.ok _ => MainOutcome.run p (scanArgs argv.tail (false, none)).1

/-- C9: with no file-path argument the process prints the
supported-format usage and exits with status 1 ≠ 0; when the audio file
fails to load it prints the failure reason and also exits with status
1 ≠ 0. -/
theorem main_errors_exit_nonzero (argv : List String)
    (loadPlayer : String → Except String Unit) (p msg : String) :
    ((scanArgs argv.tail (false, none)).2 = none →
        mainRun argv loadPlayer = MainOutcome.usageExit 1 ∧ (1 : ℕ) ≠ 0) ∧
      ((scanArgs argv.tail (false, none)).2 = some p →
        loadPlayer p = Except.error msg →
        mainRun argv loadPlayer = MainOutcome.loadErrorExit 1 ∧ (1 : ℕ) ≠ 0) := by
  constructor
  · intro hnone
    refine ⟨?_, by norm_num⟩
    unfold mainRun
    rw [hnone]
  · intro hsome hload
    refine ⟨?_, by norm_num⟩
    unfold mainRun
    rw [hsome]
    show (match loadPlayer p with
          | Except.error _ => MainOutcome.loadErrorExit 1
          | Except.ok _ =>
              MainOutcome.run p (scanArgs argv.tail (false, none)).1)
        = MainOutcome.loadErrorExit 1
    rw [hload]

/-- Witness for C9: both error paths at concrete invocations — no path
given (`apz`), and a path whose load fails (`apz song.mp3`). -/
theorem main_errors_exit_nonzero_witness :
    (mainRun ["apz"] (fun _ => Except.error "decode failed")
          = MainOutcome.usageExit 1 ∧ (1 : ℕ) ≠ 0) ∧
      (mainRun ["apz", "song.mp3"] (fun _ => Except.error "decode failed")
          = MainOutcome.loadErrorExit 1 ∧ (1 : ℕ) ≠ 0) :=
  ⟨(main_errors_exit_nonzero ["apz"] (fun _ => Except.error "decode failed")
      "song.mp3" "decode failed").1 (by decide),
    (main_errors_exit_nonzero ["apz", "song.mp3"]
      (fun _ => Except.error "decode failed") "song.mp3" "decode failed").2
      (by decide) rfl⟩

/-- C10: the `Source` impl of `TeeSource` forwards the wrapped source's
stream metadata unchanged: `channels`, `sample_rate`, `total_duration` and
`current_frame_len` each return the input's corresponding value. -/
theorem tee_forwards_metadata (t : TeeSource) :
    t.channels = t.input.channels ∧
      t.sample_rate = t.input.sample_rate ∧
      t.total_duration = t.input.total_duration ∧
      t.current_frame_len = t.input.current_frame_len :=
  ⟨rfl, rfl, rfl, rfl⟩

end Apz
